import Mathlib

/-
Shallow embedding of the meal-planner core (peva032/meal-planner):
the Category vocabulary (meal_planner/models/category.py), the entity
store (meal_planner/models/tables.py) and the DbClient operations
(meal_planner/db.py).  Quantities are Python floats in the source; they
are embedded as rationals, matching the arithmetic-sum semantics of the
aggregator.  Units are carried as plain strings (the source converts a
Unit enum to its string value before storing it).
-/

namespace MealPlanner

/-- Enum for ingredient categories with their shopping order values,
from models/category.py.  Lower order values appear first in shopping
lists. -/
inductive Category where
  | VEGETABLES
  | BAKERY
  | FRIDGE
  | DRY_FOOD
  | ASIAN
  | CANS
  | SPICES
  | TREATS
  | NOT_SURE
  | BAKING
  | FROZEN
  | ORGANIC_STORE
  | MEAT_FRIDGE
  | ALCOHOL
  | OTHER
deriving DecidableEq, Repr

/-- The integer value of each Category member (its shopping-aisle rank).
The source skips 13. -/
def Category.value : Category → Nat
  | .VEGETABLES => 1
  | .BAKERY => 2
  | .FRIDGE => 3
  | .DRY_FOOD => 4
  | .ASIAN => 5
  | .CANS => 6
  | .SPICES => 7
  | .TREATS => 8
  | .NOT_SURE => 9
  | .BAKING => 10
  | .FROZEN => 11
  | .ORGANIC_STORE => 12
  | .MEAT_FRIDGE => 14
  | .ALCOHOL => 15
  | .OTHER => 16

/-- The Python enum member name of each Category. -/
def Category.memberName : Category → String
  | .VEGETABLES => "VEGETABLES"
  | .BAKERY => "BAKERY"
  | .FRIDGE => "FRIDGE"
  | .DRY_FOOD => "DRY_FOOD"
  | .ASIAN => "ASIAN"
  | .CANS => "CANS"
  | .SPICES => "SPICES"
  | .TREATS => "TREATS"
  | .NOT_SURE => "NOT_SURE"
  | .BAKING => "BAKING"
  | .FROZEN => "FROZEN"
  | .ORGANIC_STORE => "ORGANIC_STORE"
  | .MEAT_FRIDGE => "MEAT_FRIDGE"
  | .ALCOHOL => "ALCOHOL"
  | .OTHER => "OTHER"

/-- All Category members, in declaration order. -/
def Category.all : List Category :=
  [.VEGETABLES, .BAKERY, .FRIDGE, .DRY_FOOD, .ASIAN, .CANS, .SPICES,
   .TREATS, .NOT_SURE, .BAKING, .FROZEN, .ORGANIC_STORE, .MEAT_FRIDGE,
   .ALCOHOL, .OTHER]

/-- Python str.strip(): remove leading and trailing whitespace.
Implemented over the character list so that it reduces in the kernel. -/
def pyStrip (s : String) : String :=
  ⟨((s.data.dropWhile Char.isWhitespace).reverse.dropWhile Char.isWhitespace).reverse⟩

/-- Python str.upper() restricted to the ASCII range, matching
Char.toUpper; category strings in this repository are ASCII. -/
def pyUpper (s : String) : String :=
  ⟨s.data.map Char.toUpper⟩

/-- Python str.replace(" ", "_"): the pattern is a single character, so
this is a character-wise map. -/
def pyReplaceSpaceUnderscore (s : String) : String :=
  ⟨s.data.map (fun c => if c = ' ' then '_' else c)⟩

/-- The normalisation step of Category.from_string:
category_str.strip().upper().replace(" ", "_"). -/
def normalizeCat (s : String) : String :=
  pyReplaceSpaceUnderscore (pyUpper (pyStrip s))

/-- Category.from_string: convert a category string to the corresponding
Category member.  Empty or all-whitespace input yields NOT_SURE; the
normalised string is looked up among the member names (the four special
cases of the source coincide with that lookup); no match defaults to
NOT_SURE (the source catches KeyError). -/
def Category.fromString (s : String) : Category :=
  if s = "" ∨ pyStrip s = "" then .NOT_SURE
  else
    let normalized := normalizeCat s
    if normalized = "MEAT_FRIDGE" then .MEAT_FRIDGE
    else if normalized = "DRY_FOOD" then .DRY_FOOD
    else if normalized = "NOT_SURE" then .NOT_SURE
    else if normalized = "ORGANIC_STORE" then .ORGANIC_STORE
    else
      match Category.all.find? (fun c => c.memberName = normalized) with
      | some c => c
      | none => .NOT_SURE

/-- Python str.lower() restricted to the ASCII range, matching
Char.toLower. -/
def pyLower (s : String) : String :=
  ⟨s.data.map Char.toLower⟩

/-- Case-insensitive string comparison: func.lower(a) == func.lower(b)
in the SQL queries of db.py. -/
def lowerEq (a b : String) : Bool :=
  pyLower a == pyLower b

/-- A row of the meal table (models/tables.py, class Meal); timestamps
are not modelled, no claim concerns them. -/
structure Meal where
  id : Nat
  name : String
  description : Option String
  recipe_link : Option String
  notes : Option String
deriving DecidableEq, Repr

/-- A row of the ingredient table (models/tables.py, class Ingredient).
The category column is a free-form string. -/
structure Ingredient where
  id : Nat
  name : String
  category : String
deriving DecidableEq, Repr

/-- A row of the mealingredient link table (models/tables.py, class
MealIngredient).  The quantity is a Python float, embedded as a
rational. -/
structure MealIngredient where
  id : Nat
  meal_id : Nat
  ingredient_id : Nat
  quantity : Rat
  unit : String
  notes : Option String
deriving DecidableEq, Repr

/-- The committed database state.  Rows are kept in insertion order;
the next* counters model the autoincrement primary keys (monotonic;
SQLite may reuse the ids of deleted max rows, but only the relative
order of ids is ever observable, and it agrees with this model). -/
structure Store where
  meals : List Meal
  ingredients : List Ingredient
  links : List MealIngredient
  nextMealId : Nat
  nextIngredientId : Nat
  nextLinkId : Nat
deriving DecidableEq, Repr

def emptyStore : Store := ⟨[], [], [], 0, 0, 0⟩

/-- An ingredient entry supplied to add_meal / update_meal: the source
accepts 3-tuples (name, quantity, unit), 4-tuples (name, quantity,
unit, category) and raises ValueError on any other arity.  A unit
passed as a Unit enum member is converted to its string value by the
source, so units are carried here as strings. -/
inductive IngTuple where
  | mk3 (name : String) (quantity : Rat) (unit : String)
  | mk4 (name : String) (quantity : Rat) (unit : String) (category : Option String)
  | badArity (len : Nat)
deriving DecidableEq, Repr

structure ParsedTuple where
  name : String
  quantity : Rat
  unit : String
  category : Option String
deriving DecidableEq, Repr

/-- The arity dispatch at the top of the ingredient loops of add_meal
and update_meal; wrong arity raises ValueError. -/
def parseTuple : IngTuple → Except String ParsedTuple
  | .mk3 n q u => .ok ⟨n, q, u, none⟩
  | .mk4 n q u c => .ok ⟨n, q, u, c⟩
  | .badArity _ => .error "Invalid ingredient tuple"

/-- The source expression: category if category else NOT_SURE (None and
the empty string are falsy). -/
def catOrDefault : Option String → String
  | some c => if c = "" then "NOT_SURE" else c
  | none => "NOT_SURE"

/-- A MealIngredient added to the session but not yet flushed to a
committed id. -/
structure PendingLink where
  meal_id : Nat
  ingredient_id : Nat
  quantity : Rat
  unit : String
deriving DecidableEq, Repr

/-- Assign consecutive autoincrement ids to pending links. -/
def assignIds (n : Nat) : List PendingLink → List MealIngredient
  | [] => []
  | p :: ps => ⟨n, p.meal_id, p.ingredient_id, p.quantity, p.unit, none⟩ :: assignIds (n + 1) ps

/-- A session.commit(): the pending link inserts become committed rows
with fresh ids. -/
def commitPending (st : Store) (pending : List PendingLink) : Store :=
  { st with links := st.links ++ assignIds st.nextLinkId pending,
            nextLinkId := st.nextLinkId + pending.length }

/-- The existing-relationship query of add_meal.  The session
autoflushes before a query, so links pending in the session are visible
to it alongside the committed rows. -/
def linkExists (links : List MealIngredient) (pending : List PendingLink)
    (mealId ingId : Nat) : Bool :=
  links.any (fun l => l.meal_id == mealId && l.ingredient_id == ingId) ||
  pending.any (fun p => p.meal_id == mealId && p.ingredient_id == ingId)

/-- The case-insensitive ingredient lookup shared by add_meal and
update_meal. -/
def findIngredient (st : Store) (name : String) : Option Ingredient :=
  st.ingredients.find? (fun i => lowerEq i.name name)

/-- The ingredient loop of add_meal (db.py lines 48-100).  A new
ingredient is created and committed immediately (that commit also
commits the links pending so far); the link-existence check then runs;
a surviving entry becomes a pending link; the final commit lands the
pending links.  A ValueError on a wrong-arity tuple aborts the session:
only the state committed so far survives. -/
def addMealLoop (mealId : Nat) :
    List IngTuple → Store → List PendingLink → Store × Except String Nat
  | [], st, pending => (commitPending st pending, .ok mealId)
  | t :: rest, st, pending =>
    match parseTuple t with
    | .error e => (st, .error e)
    | .ok p =>
      match findIngredient st p.name with
      | some ing =>
          if linkExists st.links pending mealId ing.id then
            addMealLoop mealId rest st pending
          else
            addMealLoop mealId rest st (pending ++ [⟨mealId, ing.id, p.quantity, p.unit⟩])
      | none =>
          let ing : Ingredient := ⟨st.nextIngredientId, p.name, catOrDefault p.category⟩
          let stC := commitPending { st with ingredients := st.ingredients ++ [ing],
                                             nextIngredientId := st.nextIngredientId + 1 } pending
          if linkExists stC.links [] mealId ing.id then
            addMealLoop mealId rest stC []
          else
            addMealLoop mealId rest stC [⟨mealId, ing.id, p.quantity, p.unit⟩]

/-- DbClient.add_meal (db.py lines 21-102).  A case-insensitive name
match returns the existing meal id with no mutation; otherwise the meal
row is created and committed before the ingredient loop runs.  An empty
or missing ingredient list (both falsy in Python) skips the loop. -/
def add_meal (st : Store) (name : String)
    (description recipe_link notes : Option String)
    (ingredients : List IngTuple) : Store × Except String Nat :=
  match st.meals.find? (fun m => lowerEq m.name name) with
  | some m => (st, .ok m.id)
  | none =>
      let meal : Meal := ⟨st.nextMealId, name, description, recipe_link, notes⟩
      let st1 := { st with meals := st.meals ++ [meal], nextMealId := st.nextMealId + 1 }
      match ingredients with
      | [] => (st1, .ok meal.id)
      | _ => addMealLoop meal.id ingredients st1 []

/-- The session-pending part of update_meal before any commit: the meal
metadata assignment and the deletion of every existing link of the
meal. -/
def applyMealUpdate (st : Store) (mealId : Nat) (newName : String)
    (description recipe_link notes : Option String) : Store :=
  { st with
    meals := st.meals.map (fun m =>
      if m.id == mealId then
        { m with name := newName, description := description,
                 recipe_link := recipe_link, notes := notes }
      else m),
    links := st.links.filter (fun l => l.meal_id != mealId) }

/-- The ingredient loop of update_meal (db.py lines 203-241).  Unlike
add_meal there is no existing-relationship check: every parsed entry
becomes a pending link.  Creating a new ingredient commits the session,
which also commits the pending metadata update, the link deletions and
the links pending so far; metaPending records whether those deletions
and the metadata assignment are still uncommitted. -/
def updateMealLoop (mealId : Nat) (newName : String)
    (description recipe_link notes : Option String) :
    List IngTuple → Store → Bool → List PendingLink → Store × Except String Bool
  | [], st, metaPending, pending =>
      let stM := if metaPending then
          applyMealUpdate st mealId newName description recipe_link notes
        else st
      (commitPending stM pending, .ok true)
  | t :: rest, st, metaPending, pending =>
    match parseTuple t with
    | .error e => (st, .error e)
    | .ok p =>
      match findIngredient st p.name with
      | some ing =>
          updateMealLoop mealId newName description recipe_link notes rest st
            metaPending (pending ++ [⟨mealId, ing.id, p.quantity, p.unit⟩])
      | none =>
          let ing : Ingredient := ⟨st.nextIngredientId, p.name, catOrDefault p.category⟩
          let stM := if metaPending then
              applyMealUpdate st mealId newName description recipe_link notes
            else st
          let stC := commitPending { stM with
              ingredients := stM.ingredients ++ [ing],
              nextIngredientId := stM.nextIngredientId + 1 } pending
          updateMealLoop mealId newName description recipe_link notes rest stC
            false [⟨mealId, ing.id, p.quantity, p.unit⟩]

/-- DbClient.update_meal (db.py lines 179-244).  session.get by primary
key; a missing meal returns False.  The link query at line 195
autoflushes the renamed meal row, so the case-sensitive UNIQUE
constraint on meal.name raises IntegrityError there when another meal
already carries exactly the supplied name, before the ingredient
entries are looked at; the transaction rolls back and the store is
unchanged.  Otherwise the metadata update and the deletion of the
existing links stay pending until the first commit; then the
ingredient loop runs; the final commit lands everything.  (add_meal
never trips a UNIQUE constraint: its case-insensitive lookups subsume
exact equality, and the loops create an ingredient only when no
case-insensitive match exists.) -/
def update_meal (st : Store) (mealId : Nat) (name : String)
    (description recipe_link notes : Option String)
    (ingredients : List IngTuple) : Store × Except String Bool :=
  match st.meals.find? (fun m => m.id == mealId) with
  | none => (st, .ok false)
  | some _ =>
      if st.meals.any (fun m => m.id != mealId && m.name == name) then
        (st, .error "IntegrityError")
      else
        match ingredients with
        | [] => (applyMealUpdate st mealId name description recipe_link notes, .ok true)
        | _ => updateMealLoop mealId name description recipe_link notes ingredients st true []

/-- DbClient.delete_meal (db.py lines 153-171).  Primary keys are
unique in every reachable state, so deleting the row found by
session.get is the same as filtering on the id. -/
def delete_meal (st : Store) (mealId : Nat) : Store × Bool :=
  match st.meals.find? (fun m => m.id == mealId) with
  | none => (st, false)
  | some _ =>
      ({ st with meals := st.meals.filter (fun m => m.id != mealId),
                 links := st.links.filter (fun l => l.meal_id != mealId) }, true)

/-- DbClient.cleanup_unused_ingredients (db.py lines 246-266). -/
def cleanup_unused_ingredients (st : Store) : Store × Nat :=
  let used := fun (i : Ingredient) => st.links.any (fun l => l.ingredient_id == i.id)
  (({ st with ingredients := st.ingredients.filter used }),
   (st.ingredients.filter (fun i => !(used i))).length)

/-- One row of the result of get_meal_ingredients: the dict {id,
quantity, unit, notes, ingredient_name} built in db.py. -/
structure MealIngredientLine where
  id : Nat
  quantity : Rat
  unit : String
  notes : Option String
  ingredient_name : String
deriving DecidableEq, Repr

/-- The order_by(MealIngredient.id) of get_meal_ingredients. -/
def rowIdLe (a b : MealIngredient × Ingredient) : Prop := a.1.id ≤ b.1.id

instance : DecidableRel rowIdLe := fun a b => Nat.decLe a.1.id b.1.id

instance : IsTotal (MealIngredient × Ingredient) rowIdLe :=
  ⟨fun a b => Nat.le_total a.1.id b.1.id⟩

instance : IsTrans (MealIngredient × Ingredient) rowIdLe :=
  ⟨fun _ _ _ => Nat.le_trans⟩

/-- DbClient.get_meal_ingredients (db.py lines 127-151): the links of
the meal inner-joined to their ingredient, ordered by MealIngredient.id
(the order_by of the query), each row carrying the resolved ingredient
name.  insertionSort is stable, and a stable sort of a total preorder
has a unique result, so it coincides with the SQL ordering. -/
def get_meal_ingredients (st : Store) (mealId : Nat) : List MealIngredientLine :=
  let rows := (st.links.filter (fun l => l.meal_id == mealId)).filterMap
      (fun l => (st.ingredients.find? (fun i => i.id == l.ingredient_id)).map
        (fun i => (l, i)))
  (List.insertionSort rowIdLe rows).map
      (fun r => ⟨r.1.id, r.1.quantity, r.1.unit, r.1.notes, r.2.name⟩)

/-- A shopping-list entry: (name, quantity, unit, category) as built in
generate_shopping_list. -/
abbrev ShoppingEntry := String × Rat × String × String

/-- The grouping key of the aggregation: (ingredient name, unit,
category). -/
abbrev GroupKey := String × String × String

/-- The join of generate_shopping_list: every MealIngredient row of the
requested meals inner-joined to its Ingredient row, in link insertion
order. -/
def joinedRows (st : Store) (mealIds : List Nat) : List (MealIngredient × Ingredient) :=
  (st.links.filter (fun l => mealIds.contains l.meal_id)).filterMap
    (fun l => (st.ingredients.find? (fun i => i.id == l.ingredient_id)).map
      (fun i => (l, i)))

def keyOfRow (r : MealIngredient × Ingredient) : GroupKey :=
  (r.2.name, r.1.unit, r.2.category)

/-- One step of the ingredient_totals dict update: add q at the key,
summing onto an existing binding; Python dicts preserve insertion
order, modelled by an association list. -/
def dictAdd (acc : List (GroupKey × Rat)) (k : GroupKey) (q : Rat) :
    List (GroupKey × Rat) :=
  if acc.any (fun e => e.1 = k) then
    acc.map (fun e => if e.1 = k then (e.1, e.2 + q) else e)
  else acc ++ [(k, q)]

/-- The aggregation loop of generate_shopping_list. -/
def aggregate (rows : List (MealIngredient × Ingredient)) : List (GroupKey × Rat) :=
  rows.foldl (fun acc r => dictAdd acc (keyOfRow r) r.1.quantity) []

def entryOfGroup (e : GroupKey × Rat) : ShoppingEntry :=
  (e.1.1, e.2, e.1.2.1, e.1.2.2)

/-- Python string comparison: lexicographic on code points.  Defined by
structural recursion so that it reduces in the kernel. -/
def charListLe : List Char → List Char → Bool
  | [], _ => true
  | _ :: _, [] => false
  | a :: as, b :: bs =>
    if a.toNat < b.toNat then true
    else if a.toNat = b.toNat then charListLe as bs
    else false

/-- Python str ordering a <= b. -/
def pyStrLe (a b : String) : Bool :=
  charListLe a.data b.data

/-- The sort key get_category_order of generate_shopping_list:
(Category value of the normalised category string, lowercased name).
Category.from_string is total, so the except branch of the source is
dead code. -/
def shoppingSortKey (e : ShoppingEntry) : Nat × String :=
  ((Category.fromString e.2.2.2).value, pyLower e.1)

/-- The ordering of list.sort(key=get_category_order): lexicographic on
the key tuples, ties left in place by stability. -/
def shoppingLE (a b : ShoppingEntry) : Bool :=
  let ka := shoppingSortKey a
  let kb := shoppingSortKey b
  ka.1 < kb.1 || (ka.1 == kb.1 && pyStrLe ka.2 kb.2)

def shoppingR (a b : ShoppingEntry) : Prop := shoppingLE a b = true

instance : DecidableRel shoppingR := fun _ _ => instDecidableEqBool _ _

/-- DbClient.generate_shopping_list (db.py lines 268-310).  list.sort
is stable, and a stable sort of a total preorder has a unique result,
so the stable insertionSort coincides with it. -/
def generate_shopping_list (st : Store) (mealIds : List Nat) : List ShoppingEntry :=
  if mealIds = [] then []
  else
    let shopping := (aggregate (joinedRows st mealIds)).map entryOfGroup
    List.insertionSort shoppingR shopping

/-- Lookup of a group key in the ingredient_totals association list. -/
def groupLookup (acc : List (GroupKey × Rat)) (k : GroupKey) : Option Rat :=
  (acc.find? (fun e => e.1 = k)).map Prod.snd

/-- The (meal, ingredient) pair of every link row, in order. -/
def linkPairs (st : Store) : List (Nat × Nat) :=
  st.links.map (fun l => (l.meal_id, l.ingredient_id))

/-- The pairs of the links still pending in a session. -/
def pendingPairs (pending : List PendingLink) : List (Nat × Nat) :=
  pending.map (fun p => (p.meal_id, p.ingredient_id))

/-- The arithmetic sum of the quantities of the joined rows falling in
the group of a key. -/
def sumQuantities (rows : List (MealIngredient × Ingredient)) (k : GroupKey) : Rat :=
  ((rows.filter (fun r => keyOfRow r = k)).map (fun r => r.1.quantity)).sum

/-- A store with one meal whose two ingredient lines arrive in
name-descending order. -/
def storeDinner : Store :=
  (add_meal emptyStore "dinner" none none none
    [.mk3 "zucchini" 1 "g", .mk3 "apple" 2 "g"]).1

/-- A store with one meal linked once to one ingredient. -/
def storePasta : Store :=
  (add_meal emptyStore "pasta" none none none [.mk3 "salt" 1 "g"]).1

/-- The previous store after an update that names the same ingredient
twice. -/
def storePastaDup : Store :=
  (update_meal storePasta 0 "pasta" none none none
    [.mk3 "salt" 1 "g", .mk3 "salt" 2 "g"]).1

/-- A store holding two meals with distinct names. -/
def storeTwoMeals : Store :=
  (add_meal (add_meal emptyStore "pasta" none none none []).1
    "soup" none none none []).1

/-- Two meals sharing the eggs ingredient, one adding a vegetable. -/
def storeAB : Store :=
  (add_meal
    (add_meal emptyStore "A" none none none
      [.mk4 "eggs" 4 "piece" (some "FRIDGE")]).1
    "B" none none none
    [.mk4 "eggs" 2 "piece" (some "FRIDGE"),
     .mk4 "carrot" 1 "piece" (some "VEGETABLES")]).1

end MealPlanner

deriving instance DecidableEq for Except

example : MealPlanner.Category.fromString " dry food " = .DRY_FOOD := by decide
example : MealPlanner.Category.fromString "totally-unknown-xyz" = .NOT_SURE := by decide
example : MealPlanner.Category.fromString "" = .NOT_SURE := by decide
example : MealPlanner.Category.fromString "Vegetables" = .VEGETABLES := by decide

namespace MealPlanner

theorem lowerEq_congr_right {n1 n2 : String} (h : lowerEq n1 n2 = true) (x : String) :
    lowerEq x n1 = lowerEq x n2 := by
  unfold lowerEq at h ⊢
  rw [eq_of_beq h]

theorem pyStrip_empty_of_eq {s : String} (h : s = "") : pyStrip s = "" := by
  subst h; rfl

theorem normalizeCat_of_strip_empty {s : String} (h : pyStrip s = "") :
    normalizeCat s = "" := by
  unfold normalizeCat
  rw [h]
  rfl

theorem addMealLoop_meals (mid : Nat) (ts : List IngTuple) :
    ∀ (st : Store) (p : List PendingLink),
      ((addMealLoop mid ts st p).1).meals = st.meals := by
  induction ts with
  | nil => intro st p; rfl
  | cons t rest ih =>
    intro st p
    cases t with
    | badArity k => rfl
    | mk3 n q u =>
      simp only [addMealLoop, parseTuple]
      cases hf : findIngredient st n with
      | some ing => simp only [hf]; split <;> apply ih
      | none => simp only [hf]; split <;> (rw [ih]; rfl)
    | mk4 n q u c =>
      simp only [addMealLoop, parseTuple]
      cases hf : findIngredient st n with
      | some ing => simp only [hf]; split <;> apply ih
      | none => simp only [hf]; split <;> (rw [ih]; rfl)

theorem addMealLoop_ok (mid : Nat) (ts : List IngTuple) :
    ∀ (st : Store) (p : List PendingLink) (j : Nat),
      (addMealLoop mid ts st p).2 = .ok j → j = mid := by
  induction ts with
  | nil =>
    intro st p j h
    simp only [addMealLoop] at h
    exact (Except.ok.injEq _ _).mp h.symm
  | cons t rest ih =>
    intro st p j h
    cases t with
    | badArity k =>
      simp only [addMealLoop, parseTuple] at h
      exact Except.noConfusion h
    | mk3 n q u =>
      simp only [addMealLoop, parseTuple] at h
      cases hf : findIngredient st n <;> simp only [hf] at h <;>
        (revert h; split <;> exact fun h => ih _ _ _ h)
    | mk4 n q u c =>
      simp only [addMealLoop, parseTuple] at h
      cases hf : findIngredient st n <;> simp only [hf] at h <;>
        (revert h; split <;> exact fun h => ih _ _ _ h)

theorem fromString_blank {s : String} (h : pyStrip s = "") :
    Category.fromString s = .NOT_SURE := by
  unfold Category.fromString
  rw [if_pos (Or.inr h)]

theorem fromString_matches {s : String} {c : Category}
    (h : normalizeCat s = c.memberName) : Category.fromString s = c := by
  by_cases hg : s = "" ∨ pyStrip s = ""
  · exfalso
    have hs : pyStrip s = "" := by
      rcases hg with hg | hg
      · exact pyStrip_empty_of_eq hg
      · exact hg
    rw [normalizeCat_of_strip_empty hs] at h
    revert h
    cases c <;> decide
  · cases c <;> simp only [Category.memberName] at h <;>
      simp only [Category.fromString, if_neg hg, h] <;> decide

theorem fromString_no_match {s : String}
    (h : ∀ c : Category, normalizeCat s ≠ c.memberName) :
    Category.fromString s = .NOT_SURE := by
  by_cases hg : s = "" ∨ pyStrip s = ""
  · unfold Category.fromString
    rw [if_pos hg]
  · have h1 := h .MEAT_FRIDGE
    have h2 := h .DRY_FOOD
    have h3 := h .NOT_SURE
    have h4 := h .ORGANIC_STORE
    simp only [Category.memberName] at h1 h2 h3 h4
    have hfind : Category.all.find? (fun c => c.memberName = normalizeCat s) = none := by
      rw [List.find?_eq_none]
      intro x _
      simp only [decide_eq_true_eq]
      exact fun hh => h x hh.symm
    simp only [Category.fromString, if_neg hg, if_neg h1, if_neg h2, if_neg h3,
      if_neg h4, hfind]

/-- C8: Category.from_string is total by construction; it maps the
empty and all-whitespace strings to NOT_SURE, maps any string whose
normalisation (strip, uppercase, spaces to underscores) equals a member
name to that member, and maps everything else to NOT_SURE. -/
theorem category_fromString_spec :
    (∀ s : String, pyStrip s = "" → Category.fromString s = .NOT_SURE) ∧
    (∀ (s : String) (c : Category),
      normalizeCat s = c.memberName → Category.fromString s = c) ∧
    (∀ s : String, (∀ c : Category, normalizeCat s ≠ c.memberName) →
      Category.fromString s = .NOT_SURE) :=
  ⟨fun _ h => fromString_blank h,
   fun _ _ h => fromString_matches h,
   fun _ h => fromString_no_match h⟩

/-- Witness for the C8 theorem at concrete inputs: a whitespace string,
a string differing from DRY_FOOD by case, surrounding blanks and a
space for the underscore, and a string matching no category. -/
theorem category_fromString_spec_witness :
    Category.fromString "   " = .NOT_SURE ∧
    Category.fromString " dry food " = .DRY_FOOD ∧
    Category.fromString "totally-unknown-xyz" = .NOT_SURE :=
  ⟨category_fromString_spec.1 "   " (by decide),
   category_fromString_spec.2.1 " dry food " .DRY_FOOD (by decide),
   category_fromString_spec.2.2 "totally-unknown-xyz" (fun c => by cases c <;> decide)⟩

/-- C10: delete_meal returns false and changes nothing when the meal id
is absent; otherwise it returns true, removes the meal row and exactly
the links of that meal, and leaves the ingredient table and every other
meal and link intact. -/
theorem delete_meal_spec (st : Store) (mealId : Nat) :
    ((delete_meal st mealId).2 = false ↔ ∀ m ∈ st.meals, m.id ≠ mealId) ∧
    ((delete_meal st mealId).2 = false → (delete_meal st mealId).1 = st) ∧
    ((delete_meal st mealId).2 = true →
      (delete_meal st mealId).1.ingredients = st.ingredients ∧
      (∀ m, m ∈ (delete_meal st mealId).1.meals ↔ m ∈ st.meals ∧ m.id ≠ mealId) ∧
      (∀ l, l ∈ (delete_meal st mealId).1.links ↔ l ∈ st.links ∧ l.meal_id ≠ mealId)) := by
  cases hf : st.meals.find? (fun m => m.id == mealId) with
  | none =>
    have hnone : ∀ m ∈ st.meals, m.id ≠ mealId := by
      intro m hm
      have := List.find?_eq_none.mp hf m hm
      simpa using this
    have hd : delete_meal st mealId = (st, false) := by
      unfold delete_meal; rw [hf]
    rw [hd]
    exact ⟨by simpa using hnone, fun _ => rfl, fun htrue => by simp at htrue⟩
  | some m0 =>
    have hm0 : m0 ∈ st.meals := List.mem_of_find?_eq_some hf
    have hid : m0.id = mealId := by simpa using List.find?_some hf
    have hd : delete_meal st mealId =
        ({ st with meals := st.meals.filter (fun m => m.id != mealId),
                   links := st.links.filter (fun l => l.meal_id != mealId) }, true) := by
      unfold delete_meal; rw [hf]
    rw [hd]
    refine ⟨⟨fun hh => by simp at hh, fun hall => absurd hid (hall m0 hm0)⟩,
      fun hh => by simp at hh, fun _ => ⟨rfl, ?_, ?_⟩⟩
    · intro m
      simp [List.mem_filter, bne_iff_ne]
    · intro l
      simp [List.mem_filter, bne_iff_ne]

/-- Witness for the C10 theorem: deleting an absent id leaves the
concrete store unchanged; deleting meal 0 keeps its ingredients. -/
theorem delete_meal_spec_witness :
    (delete_meal storeDinner 5).1 = storeDinner ∧
    (delete_meal storeDinner 0).1.ingredients = storeDinner.ingredients :=
  ⟨(delete_meal_spec storeDinner 5).2.1 (by decide),
   ((delete_meal_spec storeDinner 0).2.2 (by decide)).1⟩

/-- C6 failing run: update_meal renames meal 1 from soup to Pasta while
meal 0 is named pasta; the call succeeds and the store afterwards holds
two meals whose names differ only in case, contradicting the claimed
case-insensitive uniqueness invariant (the table constraint is even
named uq_meal_name_case_insensitive, but update_meal performs no
case-insensitive check). -/
theorem update_meal_case_rename_evidence :
    (update_meal storeTwoMeals 1 "Pasta" none none none []).2 = .ok true ∧
    (update_meal storeTwoMeals 1 "Pasta" none none none []).1.meals.map Meal.name =
      ["pasta", "Pasta"] ∧
    lowerEq "pasta" "Pasta" = true ∧ ("pasta" : String) ≠ "Pasta" := by decide

/-- C7 counterexample: add_meal with a malformed (1-field) ingredient
entry raises the validation error, yet the store afterwards is not the
store before the call: the meal row was committed before the entries
were validated. -/
theorem add_meal_bad_arity_counterexample :
    (add_meal emptyStore "toast" none none none [.badArity 1]).2 =
      .error "Invalid ingredient tuple" ∧
    (add_meal emptyStore "toast" none none none [.badArity 1]).1 ≠ emptyStore := by
  decide

/-- C7 amended: a wrong-arity entry at the head of the list makes
add_meal signal the validation error with the new meal row already
committed, while update_meal leaves the store exactly unchanged and
signals the validation error — unless the new name collides exactly
(case-sensitively) with the name of another meal, in which case the
autoflushed rename raises the database uniqueness error before the
entries are validated, the store again unchanged. -/
theorem malformed_entry_validation (st : Store) (mealId : Nat) (name : String)
    (d r n : Option String) (k : Nat) (rest : List IngTuple) :
    (st.meals.find? (fun m => lowerEq m.name name) = none →
      add_meal st name d r n (.badArity k :: rest) =
        ({ st with meals := st.meals ++ [⟨st.nextMealId, name, d, r, n⟩],
                   nextMealId := st.nextMealId + 1 },
         .error "Invalid ingredient tuple")) ∧
    ((update_meal st mealId name d r n (.badArity k :: rest)).1 = st) ∧
    ((∃ m ∈ st.meals, m.id = mealId) →
      (∀ m ∈ st.meals, m.id ≠ mealId → m.name ≠ name) →
      (update_meal st mealId name d r n (.badArity k :: rest)).2 =
        .error "Invalid ingredient tuple") ∧
    ((∃ m ∈ st.meals, m.id = mealId) →
      (∃ m ∈ st.meals, m.id ≠ mealId ∧ m.name = name) →
      (update_meal st mealId name d r n (.badArity k :: rest)).2 =
        .error "IntegrityError") := by
  refine ⟨?_, ?_, ?_, ?_⟩
  · intro hf
    simp only [add_meal, hf, addMealLoop, parseTuple]
  · cases hf : st.meals.find? (fun m => m.id == mealId) with
    | none => simp only [update_meal, hf]
    | some m0 =>
      cases hcol : st.meals.any (fun m => m.id != mealId && m.name == name) with
      | true => simp only [update_meal, hf, hcol, if_true]
      | false =>
        simp only [update_meal, hf, hcol, Bool.false_eq_true, if_false,
          updateMealLoop, parseTuple]
  · rintro ⟨m0, hm0, hid⟩ hno
    cases hf : st.meals.find? (fun m => m.id == mealId) with
    | none =>
      exact absurd (by simpa using List.find?_eq_none.mp hf m0 hm0) (by simpa using hid)
    | some m1 =>
      have hcol : st.meals.any (fun m => m.id != mealId && m.name == name) = false := by
        rw [List.any_eq_false]
        intro m hm
        simp only [Bool.and_eq_true, bne_iff_ne, beq_iff_eq, not_and]
        exact fun hne => hno m hm hne
      simp only [update_meal, hf, hcol, Bool.false_eq_true, if_false,
        updateMealLoop, parseTuple]
  · rintro ⟨m0, hm0, hid⟩ ⟨m1, hm1, hne, hname⟩
    cases hf : st.meals.find? (fun m => m.id == mealId) with
    | none =>
      exact absurd (by simpa using List.find?_eq_none.mp hf m0 hm0) (by simpa using hid)
    | some m2 =>
      have hcol : st.meals.any (fun m => m.id != mealId && m.name == name) = true := by
        rw [List.any_eq_true]
        exact ⟨m1, hm1, by simp [hne, hname]⟩
      simp only [update_meal, hf, hcol, if_true]

/-- Witness for the C7 amended theorem at concrete stores: the
committed meal row after the add_meal error, the unchanged store and
arity error of update_meal without a name collision, and the
IntegrityError when the rename collides exactly with another meal. -/
theorem malformed_entry_validation_witness :
    add_meal emptyStore "toast" none none none [.badArity 1] =
      (⟨[⟨0, "toast", none, none, none⟩], [], [], 1, 0, 0⟩,
       .error "Invalid ingredient tuple") ∧
    (update_meal storePasta 0 "pasta" none none none [.badArity 2]).1 = storePasta ∧
    (update_meal storePasta 0 "pasta" none none none [.badArity 2]).2 =
      .error "Invalid ingredient tuple" ∧
    (update_meal storeTwoMeals 1 "pasta" none none none [.badArity 2]).2 =
      .error "IntegrityError" :=
  ⟨(malformed_entry_validation emptyStore 0 "toast" none none none 1 []).1 (by decide),
   (malformed_entry_validation storePasta 0 "pasta" none none none 2 []).2.1,
   (malformed_entry_validation storePasta 0 "pasta" none none none 2 []).2.2.1
     (by decide) (by decide),
   (malformed_entry_validation storeTwoMeals 1 "pasta" none none none 2 []).2.2.2
     (by decide) (by decide)⟩

/-- C5 counterexample: the reachable store built by add_meal followed
by an update_meal naming the same ingredient twice holds two
MealIngredient rows for the pair (meal 0, ingredient 0); update_meal
performs no duplicate-link check. -/
theorem update_meal_duplicate_link_counterexample :
    linkPairs storePastaDup = [(0, 0), (0, 0)] ∧
    ¬ (linkPairs storePastaDup).Nodup := by decide

theorem add_meal_existing_eq {st : Store} {name : String} {m : Meal}
    (d r n : Option String) (ings : List IngTuple)
    (h : st.meals.find? (fun m2 => lowerEq m2.name name) = some m) :
    add_meal st name d r n ings = (st, .ok m.id) := by
  unfold add_meal
  rw [h]

/-- C4: when a meal with the supplied name (case-insensitively) already
exists, add_meal leaves the store unchanged and returns the id of such
a meal; and a second add_meal with the same name in any case returns
the id the first call produced and mutates nothing. -/
theorem add_meal_idempotent :
    (∀ (st : Store) (name : String) (d r n : Option String) (ings : List IngTuple),
      (∃ m ∈ st.meals, lowerEq m.name name = true) →
        (add_meal st name d r n ings).1 = st ∧
        ∃ m ∈ st.meals, lowerEq m.name name = true ∧
          (add_meal st name d r n ings).2 = .ok m.id) ∧
    (∀ (st : Store) (name1 name2 : String) (d1 r1 n1 d2 r2 n2 : Option String)
        (ings1 ings2 : List IngTuple) (i : Nat),
      lowerEq name1 name2 = true →
      (add_meal st name1 d1 r1 n1 ings1).2 = .ok i →
        add_meal (add_meal st name1 d1 r1 n1 ings1).1 name2 d2 r2 n2 ings2 =
          ((add_meal st name1 d1 r1 n1 ings1).1, .ok i)) := by
  constructor
  · rintro st name d r n ings ⟨m, hm, hlow⟩
    have hsome : (st.meals.find? (fun m2 => lowerEq m2.name name)).isSome := by
      rw [List.find?_isSome]
      exact ⟨m, hm, hlow⟩
    obtain ⟨m0, hf⟩ := Option.isSome_iff_exists.mp hsome
    have hm0 := List.mem_of_find?_eq_some hf
    have hl0 := List.find?_some hf
    rw [add_meal_existing_eq d r n ings hf]
    exact ⟨rfl, m0, hm0, hl0, rfl⟩
  · intro st name1 name2 d1 r1 n1 d2 r2 n2 ings1 ings2 i hlow hok
    have hpred : (fun m : Meal => lowerEq m.name name2) =
        (fun m : Meal => lowerEq m.name name1) := by
      funext m
      rw [lowerEq_congr_right hlow]
    cases hf : st.meals.find? (fun m => lowerEq m.name name1) with
    | some m =>
      have hd := add_meal_existing_eq d1 r1 n1 ings1 hf
      rw [hd] at hok ⊢
      have hi : m.id = i := by simpa using hok
      have hf2 : st.meals.find? (fun m2 => lowerEq m2.name name2) = some m := by
        rw [hpred]; exact hf
      rw [add_meal_existing_eq d2 r2 n2 ings2 hf2, hi]
    | none =>
      have hmeals : (add_meal st name1 d1 r1 n1 ings1).1.meals =
          st.meals ++ [⟨st.nextMealId, name1, d1, r1, n1⟩] := by
        unfold add_meal; rw [hf]
        cases ings1 with
        | nil => rfl
        | cons t ts => exact addMealLoop_meals _ (t :: ts) _ []
      have hok_id : i = st.nextMealId := by
        unfold add_meal at hok; rw [hf] at hok
        cases ings1 with
        | nil => simpa using hok.symm
        | cons t ts => exact addMealLoop_ok _ (t :: ts) _ [] i hok
      have hself : lowerEq name1 name1 = true := by
        simp [lowerEq]
      have hfind2 : (add_meal st name1 d1 r1 n1 ings1).1.meals.find?
          (fun m => lowerEq m.name name2) = some ⟨st.nextMealId, name1, d1, r1, n1⟩ := by
        rw [hmeals, hpred, List.find?_append, hf]
        simp [List.find?, hself]
      have h2 := add_meal_existing_eq d2 r2 n2 ings2 hfind2
      rw [h2, hok_id]

/-- Witness for the C4 theorem: PASTA finds the existing pasta meal and
mutates nothing; re-adding soup under a different case returns id 0
again with the store untouched. -/
theorem add_meal_idempotent_witness :
    (add_meal storeTwoMeals "PASTA" none none none []).1 = storeTwoMeals ∧
    add_meal (add_meal emptyStore "soup" none none none []).1 "Soup" none none none [] =
      ((add_meal emptyStore "soup" none none none []).1, .ok 0) :=
  ⟨(add_meal_idempotent.1 storeTwoMeals "PASTA" none none none []
      ⟨⟨0, "pasta", none, none, none⟩, by decide, by decide⟩).1,
   add_meal_idempotent.2 emptyStore "soup" "Soup" none none none none none none
     [] [] 0 (by decide) (by decide)⟩

/-- C9 counterexample: the lines of meal 0 of storeDinner come back in
link-id (insertion) order zucchini, apple, which is not ascending in
the resolved ingredient name. -/
theorem get_meal_ingredients_order_counterexample :
    (get_meal_ingredients storeDinner 0).map (fun r => r.ingredient_name) =
      ["zucchini", "apple"] ∧
    ¬ ((get_meal_ingredients storeDinner 0).Pairwise
        (fun a b => pyStrLe a.ingredient_name b.ingredient_name = true)) := by decide

/-- C9 amended: get_meal_ingredients returns lines ordered by link id
ascending (insertion order); every line arises from a link row of the
requested meal joined to its ingredient, carrying the resolved name,
quantity, unit and notes, and conversely every such joined row yields a
line. -/
theorem get_meal_ingredients_spec (st : Store) (mealId : Nat) :
    (get_meal_ingredients st mealId).Pairwise (fun a b => a.id ≤ b.id) ∧
    (∀ r ∈ get_meal_ingredients st mealId,
      ∃ l ∈ st.links, l.meal_id = mealId ∧ r.id = l.id ∧ r.quantity = l.quantity ∧
        r.unit = l.unit ∧ r.notes = l.notes ∧
        ∃ ing, st.ingredients.find? (fun i => i.id == l.ingredient_id) = some ing ∧
          r.ingredient_name = ing.name) ∧
    (∀ l ∈ st.links, l.meal_id = mealId →
      ∀ ing, st.ingredients.find? (fun i => i.id == l.ingredient_id) = some ing →
        (⟨l.id, l.quantity, l.unit, l.notes, ing.name⟩ : MealIngredientLine) ∈
          get_meal_ingredients st mealId) := by
  refine ⟨?_, ?_, ?_⟩
  · unfold get_meal_ingredients
    rw [List.pairwise_map]
    exact List.sorted_insertionSort rowIdLe _
  · intro r hr
    unfold get_meal_ingredients at hr
    obtain ⟨row, hrow, hfr⟩ := List.mem_map.mp hr
    rw [List.mem_insertionSort] at hrow
    obtain ⟨l0, hl0, hg⟩ := List.mem_filterMap.mp hrow
    obtain ⟨hl0mem, hl0id⟩ := List.mem_filter.mp hl0
    obtain ⟨ing, hing, hrow_eq⟩ := Option.map_eq_some'.mp hg
    refine ⟨l0, hl0mem, by simpa using hl0id, ?_⟩
    rw [← hfr, ← hrow_eq]
    exact ⟨rfl, rfl, rfl, rfl, ing, hing, rfl⟩
  · intro l hl hlid ing hing
    unfold get_meal_ingredients
    refine List.mem_map.mpr ⟨(l, ing), ?_, rfl⟩
    rw [List.mem_insertionSort]
    refine List.mem_filterMap.mpr ⟨l, List.mem_filter.mpr ⟨hl, by simpa using hlid⟩, ?_⟩
    rw [hing]
    rfl

/-- Witness for the C9 amended theorem: the zucchini link of
storeDinner appears as a returned line. -/
theorem get_meal_ingredients_spec_witness :
    (⟨0, 1, "g", none, "zucchini"⟩ : MealIngredientLine) ∈
      get_meal_ingredients storeDinner 0 :=
  (get_meal_ingredients_spec storeDinner 0).2.2 ⟨0, 0, 0, 1, "g", none⟩
    (by decide) rfl ⟨0, "zucchini", "NOT_SURE"⟩ (by decide)

theorem nodup_concat {α : Type} {l : List α} {a : α} (h : l.Nodup) (ha : a ∉ l) :
    (l ++ [a]).Nodup :=
  ((List.perm_append_singleton a l).nodup_iff).mpr (List.nodup_cons.mpr ⟨ha, h⟩)

theorem assignIds_pairs (pending : List PendingLink) :
    ∀ n, (assignIds n pending).map (fun l => (l.meal_id, l.ingredient_id)) =
      pendingPairs pending := by
  induction pending with
  | nil => intro n; rfl
  | cons p ps ih =>
    intro n
    simp only [assignIds, List.map_cons, pendingPairs]
    rw [← pendingPairs, ih (n + 1)]

theorem linkPairs_commitPending (st : Store) (pending : List PendingLink) :
    linkPairs (commitPending st pending) = linkPairs st ++ pendingPairs pending := by
  unfold linkPairs commitPending
  rw [List.map_append, assignIds_pairs]

theorem linkExists_false {links : List MealIngredient} {pending : List PendingLink}
    {mid iid : Nat} (h : linkExists links pending mid iid = false) :
    (mid, iid) ∉ links.map (fun l => (l.meal_id, l.ingredient_id)) ∧
    (mid, iid) ∉ pendingPairs pending := by
  simp only [linkExists, Bool.or_eq_false_iff, List.any_eq_false, Bool.and_eq_true,
    beq_iff_eq, not_and] at h
  constructor
  · intro hmem
    obtain ⟨l, hlmem, hleq⟩ := List.mem_map.mp hmem
    obtain ⟨h1, h2⟩ := Prod.mk.injEq .. ▸ hleq
    exact h.1 l hlmem h1 h2
  · intro hmem
    obtain ⟨p, hpmem, hpeq⟩ := List.mem_map.mp hmem
    obtain ⟨h1, h2⟩ := Prod.mk.injEq .. ▸ hpeq
    exact h.2 p hpmem h1 h2

theorem addMealLoop_nodup (mid : Nat) (ts : List IngTuple) :
    ∀ (st : Store) (p : List PendingLink),
      (linkPairs st ++ pendingPairs p).Nodup →
      (linkPairs (addMealLoop mid ts st p).1).Nodup := by
  induction ts with
  | nil =>
    intro st p h
    rw [show (addMealLoop mid [] st p).1 = commitPending st p from rfl,
      linkPairs_commitPending]
    exact h
  | cons t rest ih =>
    intro st p h
    cases t with
    | badArity k => exact h.of_append_left
    | mk3 n q u =>
      simp only [addMealLoop, parseTuple]
      cases hf : findIngredient st n with
      | some ing =>
        simp only [hf]
        cases hex : linkExists st.links p mid ing.id with
        | true => simp only [hex, if_true]; exact ih st p h
        | false =>
          simp only [hex, Bool.false_eq_true, if_false]
          apply ih
          have hne := (linkExists_false hex).2
          have hnl := (linkExists_false hex).1
          have : (mid, ing.id) ∉ linkPairs st ++ pendingPairs p := by
            rw [List.mem_append]
            rintro (hc | hc)
            · exact hnl hc
            · exact hne hc
          simp only [pendingPairs, List.map_append, ← List.append_assoc]
          exact nodup_concat h this
      | none =>
        simp only [hf]
        cases hex : linkExists (commitPending { st with
            ingredients := st.ingredients ++ [⟨st.nextIngredientId, n, catOrDefault none⟩],
            nextIngredientId := st.nextIngredientId + 1 } p).links [] mid st.nextIngredientId with
        | true =>
          simp only [hex, if_true]
          apply ih
          rw [linkPairs_commitPending]
          simpa [pendingPairs] using h
        | false =>
          simp only [hex, Bool.false_eq_true, if_false]
          apply ih
          rw [linkPairs_commitPending]
          have hnl := (linkExists_false hex).1
          rw [show (commitPending { st with
              ingredients := st.ingredients ++ [⟨st.nextIngredientId, n, catOrDefault none⟩],
              nextIngredientId := st.nextIngredientId + 1 } p).links.map
                (fun l => (l.meal_id, l.ingredient_id)) =
              linkPairs (commitPending { st with
                ingredients := st.ingredients ++ [⟨st.nextIngredientId, n, catOrDefault none⟩],
                nextIngredientId := st.nextIngredientId + 1 } p) from rfl,
            linkPairs_commitPending] at hnl
          exact nodup_concat h hnl
    | mk4 n q u c =>
      simp only [addMealLoop, parseTuple]
      cases hf : findIngredient st n with
      | some ing =>
        simp only [hf]
        cases hex : linkExists st.links p mid ing.id with
        | true => simp only [hex, if_true]; exact ih st p h
        | false =>
          simp only [hex, Bool.false_eq_true, if_false]
          apply ih
          have hne := (linkExists_false hex).2
          have hnl := (linkExists_false hex).1
          have : (mid, ing.id) ∉ linkPairs st ++ pendingPairs p := by
            rw [List.mem_append]
            rintro (hc | hc)
            · exact hnl hc
            · exact hne hc
          simp only [pendingPairs, List.map_append, ← List.append_assoc]
          exact nodup_concat h this
      | none =>
        simp only [hf]
        cases hex : linkExists (commitPending { st with
            ingredients := st.ingredients ++ [⟨st.nextIngredientId, n, catOrDefault c⟩],
            nextIngredientId := st.nextIngredientId + 1 } p).links [] mid st.nextIngredientId with
        | true =>
          simp only [hex, if_true]
          apply ih
          rw [linkPairs_commitPending]
          simpa [pendingPairs] using h
        | false =>
          simp only [hex, Bool.false_eq_true, if_false]
          apply ih
          rw [linkPairs_commitPending]
          have hnl := (linkExists_false hex).1
          rw [show (commitPending { st with
              ingredients := st.ingredients ++ [⟨st.nextIngredientId, n, catOrDefault c⟩],
              nextIngredientId := st.nextIngredientId + 1 } p).links.map
                (fun l => (l.meal_id, l.ingredient_id)) =
              linkPairs (commitPending { st with
                ingredients := st.ingredients ++ [⟨st.nextIngredientId, n, catOrDefault c⟩],
                nextIngredientId := st.nextIngredientId + 1 } p) from rfl,
            linkPairs_commitPending] at hnl
          exact nodup_concat h hnl

/-- C5 amended: add_meal never introduces a duplicate (meal,
ingredient) link pair: if the link pairs of the store are distinct
before the call they are distinct after it, every entry being checked
against both the committed and the session-pending links. -/
theorem add_meal_no_duplicate_links (st : Store) (name : String)
    (d r n : Option String) (ings : List IngTuple)
    (h : (linkPairs st).Nodup) :
    (linkPairs (add_meal st name d r n ings).1).Nodup := by
  cases hf : st.meals.find? (fun m => lowerEq m.name name) with
  | some m =>
    rw [add_meal_existing_eq d r n ings hf]
    exact h
  | none =>
    unfold add_meal
    rw [hf]
    cases ings with
    | nil => exact h
    | cons t ts =>
      exact addMealLoop_nodup _ (t :: ts) _ [] (by simpa [pendingPairs] using h)

/-- Witness for the C5 amended theorem: one add_meal call naming salt
twice (differing in case) still produces distinct link pairs. -/
theorem add_meal_no_duplicate_links_witness :
    (linkPairs (add_meal storeTwoMeals "stew" none none none
        [.mk3 "salt" 1 "g", .mk3 "Salt" 2 "g"]).1).Nodup :=
  add_meal_no_duplicate_links storeTwoMeals "stew" none none none
    [.mk3 "salt" 1 "g", .mk3 "Salt" 2 "g"] (by decide)

/-- C3: generate_shopping_list depends on the requested meal ids only
through membership: two id lists with the same members (any order, any
multiplicity) yield the same list, entries and order included. -/
theorem generate_shopping_list_set_invariant (st : Store) (ids1 ids2 : List Nat)
    (h : ∀ x, x ∈ ids1 ↔ x ∈ ids2) :
    generate_shopping_list st ids1 = generate_shopping_list st ids2 := by
  by_cases h1 : ids1 = []
  · subst h1
    have h2 : ids2 = [] := by
      cases ids2 with
      | nil => rfl
      | cons a t => exact absurd ((h a).mpr (List.mem_cons_self a t)) (List.not_mem_nil a)
    subst h2
    rfl
  · have h2 : ids2 ≠ [] := by
      intro hnil
      subst hnil
      cases ids1 with
      | nil => exact h1 rfl
      | cons a t => exact absurd ((h a).mp (List.mem_cons_self a t)) (List.not_mem_nil a)
    have hrows : joinedRows st ids1 = joinedRows st ids2 := by
      unfold joinedRows
      congr 1
      apply List.filter_congr
      intro l _
      simp only [List.contains, List.elem_eq_mem]
      exact decide_eq_decide.mpr (h l.meal_id)
    unfold generate_shopping_list
    rw [if_neg h1, if_neg h2, hrows]

/-- Witness for the C3 theorem: the two orders of the same id set give
identical shopping lists on the concrete store. -/
theorem generate_shopping_list_set_invariant_witness :
    generate_shopping_list storeAB [0, 1] = generate_shopping_list storeAB [1, 0] :=
  generate_shopping_list_set_invariant storeAB [0, 1] [1, 0]
    (fun x => by simp [or_comm])

theorem charListLe_total : ∀ (as bs : List Char),
    charListLe as bs = true ∨ charListLe bs as = true := by
  intro as
  induction as with
  | nil => intro bs; left; rfl
  | cons a as ih =>
    intro bs
    cases bs with
    | nil => right; rfl
    | cons b bs =>
      simp only [charListLe]
      rcases Nat.lt_trichotomy a.toNat b.toNat with hlt | heq | hgt
      · left
        rw [if_pos hlt]
      · rcases ih bs with h | h
        · left
          rw [if_neg (by omega), if_pos heq]
          exact h
        · right
          rw [if_neg (by omega), if_pos heq.symm]
          exact h
      · right
        rw [if_pos hgt]

theorem charListLe_trans : ∀ (as bs cs : List Char),
    charListLe as bs = true → charListLe bs cs = true → charListLe as cs = true := by
  intro as
  induction as with
  | nil => intro bs cs _ _; rfl
  | cons a as ih =>
    intro bs cs h1 h2
    cases bs with
    | nil => simp [charListLe] at h1
    | cons b bs =>
      cases cs with
      | nil => simp [charListLe] at h2
      | cons c cs =>
        simp only [charListLe] at h1 h2 ⊢
        by_cases hab : a.toNat < b.toNat <;> by_cases hbc : b.toNat < c.toNat
        · rw [if_pos (Nat.lt_trans hab hbc)]
        · rw [if_neg hbc] at h2
          by_cases hbc2 : b.toNat = c.toNat
          · rw [if_pos (by omega : a.toNat < c.toNat)]
          · rw [if_neg hbc2] at h2
            exact absurd h2 (by simp)
        · rw [if_neg hab] at h1
          by_cases hab2 : a.toNat = b.toNat
          · rw [if_pos (by omega : a.toNat < c.toNat)]
          · rw [if_neg hab2] at h1
            exact absurd h1 (by simp)
        · rw [if_neg hab] at h1
          rw [if_neg hbc] at h2
          by_cases hab2 : a.toNat = b.toNat
          · by_cases hbc2 : b.toNat = c.toNat
            · rw [if_pos hab2] at h1
              rw [if_pos hbc2] at h2
              rw [if_neg (by omega), if_pos (by omega : a.toNat = c.toNat)]
              exact ih bs cs h1 h2
            · rw [if_neg hbc2] at h2
              exact absurd h2 (by simp)
          · rw [if_neg hab2] at h1
            exact absurd h1 (by simp)

theorem shoppingLE_total (a b : ShoppingEntry) :
    shoppingLE a b = true ∨ shoppingLE b a = true := by
  unfold shoppingLE
  rcases Nat.lt_trichotomy (shoppingSortKey a).1 (shoppingSortKey b).1 with h | h | h
  · left
    simp [h]
  · rcases charListLe_total (shoppingSortKey a).2.data (shoppingSortKey b).2.data with hc | hc
    · left
      simp [h, pyStrLe, hc]
    · right
      simp [h.symm, pyStrLe, hc, Nat.lt_irrefl]
  · right
    simp [h]

theorem shoppingLE_trans (a b c : ShoppingEntry)
    (h1 : shoppingLE a b = true) (h2 : shoppingLE b c = true) :
    shoppingLE a c = true := by
  unfold shoppingLE at h1 h2 ⊢
  simp only [Bool.or_eq_true, Bool.and_eq_true, decide_eq_true_eq, beq_iff_eq] at h1 h2 ⊢
  rcases h1 with h1 | ⟨h1e, h1s⟩ <;> rcases h2 with h2 | ⟨h2e, h2s⟩
  · left; omega
  · left; omega
  · left; omega
  · right
    exact ⟨by omega, charListLe_trans _ _ _ h1s h2s⟩

/-- C2: the shopping list is sorted primarily by the rank of the
normalised category ascending and secondarily by the lowercased
ingredient name ascending; a category string matching no member sorts
with the NOT_SURE rank; and no aggregated entry is dropped by the
sort. -/
theorem generate_shopping_list_sorted (st : Store) (mealIds : List Nat) :
    (generate_shopping_list st mealIds).Pairwise (fun a b =>
      (Category.fromString a.2.2.2).value < (Category.fromString b.2.2.2).value ∨
      ((Category.fromString a.2.2.2).value = (Category.fromString b.2.2.2).value ∧
        pyStrLe (pyLower a.1) (pyLower b.1) = true)) ∧
    (∀ c : String, (∀ cat : Category, normalizeCat c ≠ cat.memberName) →
      (Category.fromString c).value = Category.NOT_SURE.value) ∧
    (mealIds ≠ [] → ∀ e ∈ (aggregate (joinedRows st mealIds)).map entryOfGroup,
      e ∈ generate_shopping_list st mealIds) := by
  refine ⟨?_, ?_, ?_⟩
  · by_cases hids : mealIds = []
    · unfold generate_shopping_list
      rw [if_pos hids]
      exact List.Pairwise.nil
    · unfold generate_shopping_list
      rw [if_neg hids]
      haveI : IsTotal ShoppingEntry shoppingR := ⟨fun a b => shoppingLE_total a b⟩
      haveI : IsTrans ShoppingEntry shoppingR := ⟨fun a b c => shoppingLE_trans a b c⟩
      have hs := List.sorted_insertionSort shoppingR
        ((aggregate (joinedRows st mealIds)).map entryOfGroup)
      refine hs.imp ?_
      intro a b hab
      have : shoppingLE a b = true := hab
      unfold shoppingLE at this
      simp only [Bool.or_eq_true, Bool.and_eq_true, decide_eq_true_eq, beq_iff_eq] at this
      exact this
  · intro c h
    rw [fromString_no_match h]
  · intro hids e he
    unfold generate_shopping_list
    rw [if_neg hids]
    exact (List.mem_insertionSort shoppingR).mpr he

/-- Witness for the C2 theorem: an unknown category string gets the
NOT_SURE rank, and a concrete aggregated entry survives the sort. -/
theorem generate_shopping_list_sorted_witness :
    (Category.fromString "totally-unknown-xyz").value = Category.NOT_SURE.value ∧
    ("carrot", (1 : Rat), "piece", "VEGETABLES") ∈ generate_shopping_list storeAB [0, 1] :=
  ⟨(generate_shopping_list_sorted emptyStore []).2.1 "totally-unknown-xyz"
      (fun cat => by cases cat <;> decide),
   (generate_shopping_list_sorted storeAB [0, 1]).2.2 (by decide)
      ("carrot", (1 : Rat), "piece", "VEGETABLES") (by decide)⟩

theorem dictAdd_keys_of_mem {acc : List (GroupKey × Rat)} {k : GroupKey} {q : Rat}
    (h : acc.any (fun e => e.1 = k) = true) :
    (dictAdd acc k q).map Prod.fst = acc.map Prod.fst := by
  unfold dictAdd
  rw [if_pos h, List.map_map]
  apply List.map_congr_left
  intro e _
  by_cases hek : e.1 = k
  · simp [hek]
  · simp [hek]

theorem dictAdd_keys_of_not_mem {acc : List (GroupKey × Rat)} {k : GroupKey} {q : Rat}
    (h : acc.any (fun e => e.1 = k) = false) :
    (dictAdd acc k q).map Prod.fst = acc.map Prod.fst ++ [k] := by
  unfold dictAdd
  rw [if_neg (by simp [h]), List.map_append]
  rfl

theorem any_key_iff (acc : List (GroupKey × Rat)) (k : GroupKey) :
    acc.any (fun e => e.1 = k) = true ↔ k ∈ acc.map Prod.fst := by
  simp only [List.any_eq_true, decide_eq_true_eq, List.mem_map]

theorem dictAdd_keys_nodup {acc : List (GroupKey × Rat)} {k : GroupKey} {q : Rat}
    (h : (acc.map Prod.fst).Nodup) : ((dictAdd acc k q).map Prod.fst).Nodup := by
  cases hany : acc.any (fun e => e.1 = k) with
  | true =>
    rw [dictAdd_keys_of_mem hany]
    exact h
  | false =>
    rw [dictAdd_keys_of_not_mem hany]
    refine nodup_concat h ?_
    intro hk
    rw [← any_key_iff] at hk
    rw [hany] at hk
    exact Bool.noConfusion hk

theorem groupLookup_dictAdd_of_some {acc : List (GroupKey × Rat)} {k : GroupKey}
    {q v : Rat} (h : groupLookup acc k = some v) :
    groupLookup (dictAdd acc k q) k = some (v + q) := by
  unfold groupLookup at h
  obtain ⟨e, hfe, hv⟩ := Option.map_eq_some'.mp h
  have hek : e.1 = k := by simpa using List.find?_some hfe
  have hany : acc.any (fun x => x.1 = k) = true := by
    rw [List.any_eq_true]
    exact ⟨e, List.mem_of_find?_eq_some hfe, by simpa using hek⟩
  unfold groupLookup dictAdd
  rw [if_pos hany, List.find?_map]
  have hpred : ((fun x : GroupKey × Rat => decide (x.1 = k)) ∘
      (fun e => if e.1 = k then (e.1, e.2 + q) else e)) =
      (fun x : GroupKey × Rat => decide (x.1 = k)) := by
    funext x
    by_cases hx : x.1 = k <;> simp [hx]
  rw [hpred, hfe]
  simp [hek, hv]

theorem groupLookup_dictAdd_of_none {acc : List (GroupKey × Rat)} {k : GroupKey}
    {q : Rat} (h : groupLookup acc k = none) :
    groupLookup (dictAdd acc k q) k = some q := by
  unfold groupLookup at h
  have hfe : acc.find? (fun e => e.1 = k) = none := by
    cases hf : acc.find? (fun e => e.1 = k) with
    | none => rfl
    | some e =>
      rw [hf] at h
      simp at h
  have hany : acc.any (fun x => x.1 = k) = false := by
    rw [List.any_eq_false]
    intro e he
    simpa using List.find?_eq_none.mp hfe e he
  unfold groupLookup dictAdd
  rw [if_neg (by simp [hany]), List.find?_append, hfe]
  simp [List.find?]

theorem groupLookup_dictAdd_of_ne {acc : List (GroupKey × Rat)} {k k2 : GroupKey}
    {q : Rat} (h : k2 ≠ k) :
    groupLookup (dictAdd acc k q) k2 = groupLookup acc k2 := by
  unfold groupLookup dictAdd
  by_cases hany : acc.any (fun e => e.1 = k) = true
  · rw [if_pos hany, List.find?_map]
    have hpred : ((fun x : GroupKey × Rat => decide (x.1 = k2)) ∘
        (fun e => if e.1 = k then (e.1, e.2 + q) else e)) =
        (fun x : GroupKey × Rat => decide (x.1 = k2)) := by
      funext x
      by_cases hx : x.1 = k <;> simp [hx]
    rw [hpred]
    cases hf : acc.find? (fun e => e.1 = k2) with
    | none => rfl
    | some e =>
      have he2 : e.1 = k2 := by simpa using List.find?_some hf
      have hek : ¬ (e.1 = k) := by
        rw [he2]
        exact h
      simp [hek]
  · rw [if_neg hany, List.find?_append]
    have hnil : List.find? (fun e => e.1 = k2) [(k, q)] = none := by
      have hkk : ¬ ((k, q).1 = k2) := fun he => h he.symm
      rw [List.find?_cons_of_neg _ (by simpa using hkk)]
      rfl
    rw [hnil, Option.or_none]

theorem aggregate_keys_nodup_aux (rows : List (MealIngredient × Ingredient)) :
    ∀ acc : List (GroupKey × Rat), (acc.map Prod.fst).Nodup →
      ((rows.foldl (fun a r => dictAdd a (keyOfRow r) r.1.quantity) acc).map Prod.fst).Nodup := by
  induction rows with
  | nil => intro acc h; exact h
  | cons r rows ih =>
    intro acc h
    exact ih _ (dictAdd_keys_nodup h)

theorem aggregate_keys_nodup (rows : List (MealIngredient × Ingredient)) :
    ((aggregate rows).map Prod.fst).Nodup :=
  aggregate_keys_nodup_aux rows [] List.nodup_nil

theorem sumQuantities_cons_of_pos {r : MealIngredient × Ingredient}
    {rows : List (MealIngredient × Ingredient)} {k : GroupKey} (h : keyOfRow r = k) :
    sumQuantities (r :: rows) k = r.1.quantity + sumQuantities rows k := by
  unfold sumQuantities
  rw [List.filter_cons_of_pos (by simpa using h), List.map_cons, List.sum_cons]

theorem sumQuantities_cons_of_neg {r : MealIngredient × Ingredient}
    {rows : List (MealIngredient × Ingredient)} {k : GroupKey} (h : ¬ keyOfRow r = k) :
    sumQuantities (r :: rows) k = sumQuantities rows k := by
  unfold sumQuantities
  rw [List.filter_cons_of_neg (by simpa using h)]

theorem foldl_lookup_some (rows : List (MealIngredient × Ingredient)) :
    ∀ (acc : List (GroupKey × Rat)) (k : GroupKey) (v : Rat),
      groupLookup acc k = some v →
      groupLookup (rows.foldl (fun a r => dictAdd a (keyOfRow r) r.1.quantity) acc) k =
        some (v + sumQuantities rows k) := by
  induction rows with
  | nil =>
    intro acc k v h
    have : sumQuantities [] k = 0 := rfl
    rw [List.foldl_nil, this, add_zero]
    exact h
  | cons r rows ih =>
    intro acc k v h
    rw [List.foldl_cons]
    by_cases hk : keyOfRow r = k
    · have h2 : groupLookup (dictAdd acc (keyOfRow r) r.1.quantity) k =
          some (v + r.1.quantity) := by
        rw [hk]
        exact groupLookup_dictAdd_of_some h
      rw [ih _ k (v + r.1.quantity) h2, sumQuantities_cons_of_pos hk]
      congr 1
      ring
    · have h2 : groupLookup (dictAdd acc (keyOfRow r) r.1.quantity) k = some v := by
        rw [groupLookup_dictAdd_of_ne (fun he => hk he.symm)]
        exact h
      rw [ih _ k v h2, sumQuantities_cons_of_neg hk]

theorem foldl_lookup_none (rows : List (MealIngredient × Ingredient)) :
    ∀ (acc : List (GroupKey × Rat)) (k : GroupKey),
      groupLookup acc k = none →
      groupLookup (rows.foldl (fun a r => dictAdd a (keyOfRow r) r.1.quantity) acc) k =
        if rows.any (fun r => keyOfRow r = k) then some (sumQuantities rows k) else none := by
  induction rows with
  | nil =>
    intro acc k h
    rw [List.foldl_nil]
    exact h
  | cons r rows ih =>
    intro acc k h
    rw [List.foldl_cons]
    by_cases hk : keyOfRow r = k
    · have h2 : groupLookup (dictAdd acc (keyOfRow r) r.1.quantity) k =
          some r.1.quantity := by
        rw [hk]
        exact groupLookup_dictAdd_of_none h
      rw [foldl_lookup_some rows _ k _ h2]
      have hany : (r :: rows).any (fun r2 => keyOfRow r2 = k) = true := by
        simp [List.any_cons, hk]
      rw [if_pos hany, sumQuantities_cons_of_pos hk]
    · have h2 : groupLookup (dictAdd acc (keyOfRow r) r.1.quantity) k = none := by
        rw [groupLookup_dictAdd_of_ne (fun he => hk he.symm)]
        exact h
      rw [ih _ k h2]
      have hany : (r :: rows).any (fun r2 => keyOfRow r2 = k) =
          rows.any (fun r2 => keyOfRow r2 = k) := by
        simp [List.any_cons, hk]
      rw [hany, sumQuantities_cons_of_neg hk]

theorem aggregate_lookup (rows : List (MealIngredient × Ingredient)) (k : GroupKey) :
    groupLookup (aggregate rows) k =
      if rows.any (fun r => keyOfRow r = k) then some (sumQuantities rows k) else none :=
  foldl_lookup_none rows [] k rfl

theorem mem_iff_groupLookup : ∀ (acc : List (GroupKey × Rat)) (k : GroupKey) (v : Rat),
    (acc.map Prod.fst).Nodup → ((k, v) ∈ acc ↔ groupLookup acc k = some v) := by
  intro acc
  induction acc with
  | nil =>
    intro k v _
    simp [groupLookup]
  | cons e es ih =>
    intro k v h
    rw [List.map_cons] at h
    obtain ⟨hnot, hnd⟩ := List.nodup_cons.mp h
    by_cases hek : e.1 = k
    · have hgl : groupLookup (e :: es) k = some e.2 := by
        unfold groupLookup
        rw [List.find?_cons_of_pos _ (by simpa using hek)]
        rfl
      rw [hgl]
      constructor
      · intro hm
        rcases List.mem_cons.mp hm with he | hm2
        · rw [← he]
        · exfalso
          apply hnot
          rw [hek]
          exact List.mem_map.mpr ⟨(k, v), hm2, rfl⟩
      · intro hl
        have he2 : e.2 = v := by simpa using hl
        have : e = (k, v) := Prod.ext hek he2
        exact List.mem_cons.mpr (Or.inl this.symm)
    · have hgl : groupLookup (e :: es) k = groupLookup es k := by
        unfold groupLookup
        rw [List.find?_cons_of_neg _ (by simpa using hek)]
      rw [hgl, ← ih k v hnd]
      constructor
      · intro hm
        rcases List.mem_cons.mp hm with he | hm2
        · exact absurd (congrArg Prod.fst he.symm) hek
        · exact hm2
      · intro hm
        exact List.mem_cons.mpr (Or.inr hm)

theorem joinedRows_nil (st : Store) : joinedRows st [] = [] := by
  unfold joinedRows
  have hfil : st.links.filter (fun l => ([] : List Nat).contains l.meal_id) = [] := by
    induction st.links with
    | nil => rfl
    | cons l ls ih =>
      rw [show List.filter (fun l2 => ([] : List Nat).contains l2.meal_id) (l :: ls) =
        List.filter (fun l2 => ([] : List Nat).contains l2.meal_id) ls from rfl]
      exact ih
  rw [hfil]
  rfl

theorem entryOfGroup_eq_iff (g : GroupKey × Rat) (nm : String) (q : Rat)
    (u cat : String) : entryOfGroup g = (nm, q, u, cat) ↔ g = ((nm, u, cat), q) := by
  obtain ⟨⟨a, b, c⟩, v⟩ := g
  unfold entryOfGroup
  simp only [Prod.mk.injEq]
  tauto

/-- C1: the shopping list for an empty id list is empty; otherwise it
has exactly one entry per distinct (name, unit, category) triple among
the joined rows of the requested meals, carrying the arithmetic sum of
the quantities of the rows in that group. -/
theorem generate_shopping_list_aggregation (st : Store) (mealIds : List Nat) :
    generate_shopping_list st [] = [] ∧
    ((generate_shopping_list st mealIds).map (fun e => (e.1, e.2.2.1, e.2.2.2))).Nodup ∧
    (∀ (nm : String) (q : Rat) (u cat : String),
      (nm, q, u, cat) ∈ generate_shopping_list st mealIds ↔
        (∃ r ∈ joinedRows st mealIds, keyOfRow r = (nm, u, cat)) ∧
        q = sumQuantities (joinedRows st mealIds) (nm, u, cat)) := by
  refine ⟨rfl, ?_, ?_⟩
  · by_cases hids : mealIds = []
    · simp [generate_shopping_list, hids]
    · unfold generate_shopping_list
      rw [if_neg hids]
      have hperm := List.perm_insertionSort shoppingR
        ((aggregate (joinedRows st mealIds)).map entryOfGroup)
      have hperm2 := hperm.map (fun e : ShoppingEntry => (e.1, e.2.2.1, e.2.2.2))
      rw [hperm2.nodup_iff, List.map_map]
      have hcomp : ((fun e : ShoppingEntry => (e.1, e.2.2.1, e.2.2.2)) ∘ entryOfGroup) =
          (Prod.fst : GroupKey × Rat → GroupKey) := by
        funext g
        obtain ⟨⟨a, b, c⟩, v⟩ := g
        rfl
      rw [hcomp]
      exact aggregate_keys_nodup _
  · intro nm q u cat
    by_cases hids : mealIds = []
    · subst hids
      have h1 : generate_shopping_list st [] = [] := rfl
      rw [h1, joinedRows_nil]
      simp
    · unfold generate_shopping_list
      rw [if_neg hids]
      constructor
      · intro hm
        rw [List.mem_insertionSort] at hm
        obtain ⟨g, hg, hge⟩ := List.mem_map.mp hm
        rw [entryOfGroup_eq_iff] at hge
        subst hge
        have hlk := (mem_iff_groupLookup _ _ _ (aggregate_keys_nodup _)).mp hg
        rw [aggregate_lookup] at hlk
        by_cases hany : (joinedRows st mealIds).any
            (fun r => keyOfRow r = (nm, u, cat)) = true
        · rw [if_pos hany] at hlk
          have hq : q = sumQuantities (joinedRows st mealIds) (nm, u, cat) := by
            simpa using hlk.symm
          refine ⟨?_, hq⟩
          rw [List.any_eq_true] at hany
          obtain ⟨r, hr, hkr⟩ := hany
          exact ⟨r, hr, by simpa using hkr⟩
        · rw [if_neg hany] at hlk
          exact absurd hlk (by simp)
      · rintro ⟨⟨r, hr, hkr⟩, hq⟩
        rw [List.mem_insertionSort]
        apply List.mem_map.mpr
        refine ⟨((nm, u, cat), q), ?_, rfl⟩
        rw [mem_iff_groupLookup _ _ _ (aggregate_keys_nodup _), aggregate_lookup]
        have hany : (joinedRows st mealIds).any
            (fun r2 => keyOfRow r2 = (nm, u, cat)) = true := by
          rw [List.any_eq_true]
          exact ⟨r, hr, by simpa using hkr⟩
        rw [if_pos hany, hq]

/-- Witness for the C1 theorem: the carrot group of storeAB has a
single row of quantity 1, and the corresponding entry is in the
shopping list. -/
theorem generate_shopping_list_aggregation_witness :
    ("carrot", (1 : Rat), "piece", "VEGETABLES") ∈
      generate_shopping_list storeAB [0, 1] := by
  have hfil : (joinedRows storeAB [0, 1]).filter
      (fun r => keyOfRow r = ("carrot", "piece", "VEGETABLES")) =
      [(⟨2, 1, 1, 1, "piece", none⟩, ⟨1, "carrot", "VEGETABLES"⟩)] := by decide
  have hsum : sumQuantities (joinedRows storeAB [0, 1])
      ("carrot", "piece", "VEGETABLES") = 1 := by
    unfold sumQuantities
    rw [hfil]
    simp
  exact ((generate_shopping_list_aggregation storeAB [0, 1]).2.2
      "carrot" 1 "piece" "VEGETABLES").mpr
    ⟨⟨(⟨2, 1, 1, 1, "piece", none⟩, ⟨1, "carrot", "VEGETABLES"⟩), by decide, by decide⟩,
     hsum.symm⟩

end MealPlanner
